/-
Verification of the NexusAI platform core against its specification.

Shallow embedding of:
  - backend/services/camera/stream_manager.py   (frame queue, motion detection)
  - backend/services/inference/inference_queue.py (priority queue, submit, stop)
  - backend/services/inference/model_cache.py   (LRU cache, stats)

Stateful Python methods become explicit state-passing functions; the
asyncio interleaving of `get_model` is modelled as a step relation over
scheduler words (one step per atomic section between await points).
-/
import Mathlib

set_option linter.unusedVariables false

namespace StreamM

/-!
## Camera stream pipeline: per-camera frame queue
`StreamSession._capture_loop` (stream_manager.py lines 138-148):
the producer tries `put_nowait(frame)`; on `QueueFull` it performs
`get_nowait()` (dropping the oldest queued frame), re-puts the new frame
and increments `dropped_frames`.  The queue is `asyncio.Queue(maxsize=cap)`;
`full` means `length = cap`.  The inner `QueueEmpty` branch (a full queue
that is simultaneously empty) silently drops the new frame; it is
unreachable for `cap ≥ 1`.
-/

/-- State of one camera frame queue: the queued frames (head = oldest)
and the `dropped_frames` counter. -/
structure FrameQueue where
  frames : List Nat
  cap : Nat
  dropped : Nat
  deriving Repr, DecidableEq

/-- One producer iteration body: `put_nowait` with the drop-oldest
fallback of `_capture_loop`. -/
def putFrame (q : FrameQueue) (f : Nat) : FrameQueue :=
  if q.frames.length < q.cap then
    { q with frames := q.frames ++ [f] }
  else
    match q.frames with
    | [] => q
    | _ :: rest => { q with frames := rest ++ [f], dropped := q.dropped + 1 }

/-- Producer emits a list of frames in order (processor blocked: no gets). -/
def putFrames (q : FrameQueue) (fs : List Nat) : FrameQueue :=
  fs.foldl putFrame q

/-- Consumer side: `_processing_loop` takes frames from the front until the
queue is empty (the drained order is what the processor consumes). -/
def drainFrames (q : FrameQueue) : List Nat :=
  q.frames

end StreamM

namespace StreamM

/-!
## Motion detection (`StreamManager._process_frame`)
The pixel pipeline (absdiff, threshold at 30, dilate) is upstream of the
claims; the embedding starts from the nonzero-pixel count `N` and the list
of external contours, each carrying its area and bounding rectangle as
produced by `cv2.contourArea` / `cv2.boundingRect`.
-/

/-- An external contour as consumed by `_process_frame`: its area and its
bounding rectangle. -/
structure Contour where
  area : Nat
  x : Nat
  y : Nat
  w : Nat
  h : Nat
  deriving Repr, DecidableEq

/-- A bounding box entry of the motion event metadata. -/
structure BBox where
  x : Nat
  y : Nat
  w : Nat
  h : Nat
  area : Nat
  deriving Repr, DecidableEq

/-- The `motion_detected` event metadata built by `_process_frame`. -/
structure MotionEvent where
  motion_pixels : Nat
  contour_count : Nat
  bounding_boxes : List BBox
  deriving Repr, DecidableEq

/-- Contours kept as significant: `cv2.contourArea(c) > 500`. -/
def significantContours (contours : List Contour) : List Contour :=
  contours.filter (fun c => 500 < c.area)

/-- Motion branch of `_process_frame`: if `motion_pixels > motion_threshold`
an event is emitted whose boxes come from the first 10 significant
contours (`significant_contours[:10]`); otherwise nothing is emitted. -/
def process_frame (motion_pixels motion_threshold : Nat)
    (contours : List Contour) : Option MotionEvent :=
  if motion_pixels > motion_threshold then
    let significant := significantContours contours
    some { motion_pixels := motion_pixels
           contour_count := significant.length
           bounding_boxes :=
             (significant.take 10).map
               (fun c => { x := c.x, y := c.y, w := c.w, h := c.h, area := c.area }) }
  else
    none

end StreamM

namespace InferenceQueueM

/-!
## Inference queue (`InferenceQueue`, inference_queue.py)
`submit_job` pushes `(-priority, timestamp, job)` into an
`asyncio.PriorityQueue`; `_worker` pops the smallest such triple.  The
queue is embedded as the multiset of queued triples, and the pop as the
selection of the lexicographically least `(-priority, timestamp)` key
(heap pops compare the third component only on full key ties, which the
theorems exclude by requiring distinct keys).
-/

/-- Job status (`InferenceStatus`). -/
inductive JobStatus where
  | pending
  | processing
  | completed
  | failed
  deriving Repr, DecidableEq

/-- A queued triple `(-priority, timestamp, job)`; the job is identified
by its id. -/
structure QEntry where
  negp : Int
  ts : Nat
  jid : Nat
  deriving Repr, DecidableEq

/-- The heap key of a queued entry. -/
def entKey (e : QEntry) : Int × Nat := (e.negp, e.ts)

/-- Lexicographic strict order on heap keys (tuple comparison). -/
def keyLt (a b : Int × Nat) : Prop :=
  a.1 < b.1 ∨ (a.1 = b.1 ∧ a.2 < b.2)

/-- Lexicographic order on heap keys. -/
def keyLe (a b : Int × Nat) : Prop :=
  a.1 < b.1 ∨ (a.1 = b.1 ∧ a.2 ≤ b.2)

instance (a b : Int × Nat) : Decidable (keyLt a b) := by
  unfold keyLt; infer_instance

instance (a b : Int × Nat) : Decidable (keyLe a b) := by
  unfold keyLe; infer_instance

/-- The entry `submit_job` enqueues for a job of the given priority:
`(-priority, datetime.utcnow().timestamp(), job)`. -/
def submitEntry (priority : Int) (ts : Nat) (jid : Nat) : QEntry :=
  { negp := -priority, ts := ts, jid := jid }

/-- Pop of the priority queue: returns the entry with the least
`(-priority, timestamp)` key and the remaining entries. -/
def popMin : List QEntry → Option (QEntry × List QEntry)
  | [] => none
  | e :: es =>
    match popMin es with
    | none => some (e, [])
    | some (m, rest) =>
      if keyLt (entKey m) (entKey e) then some (m, e :: rest)
      else some (e, es)

/-- Repeatedly popping the queue (one blocked worker released): the
dispatch order, as job ids. -/
def drainAux : Nat → List QEntry → List Nat
  | 0, _ => []
  | fuel + 1, q =>
    match popMin q with
    | none => []
    | some (e, rest) => e.jid :: drainAux fuel rest

/-- Dispatch order of a queue's jobs. -/
def drainJobs (q : List QEntry) : List Nat :=
  drainAux q.length q

/-- Scheduler state: `_running`, the priority queue, the job registry
(`self.jobs`, as an association list id ↦ status) and `stats["total_jobs"]`. -/
structure QueueState where
  running : Bool
  maxQueueSize : Nat
  queue : List QEntry
  jobs : List (Nat × JobStatus)
  totalJobs : Nat
  deriving Repr, DecidableEq

/-- Errors `submit_job` raises. -/
inductive SubmitError where
  | notRunning
  | queueFull
  deriving Repr, DecidableEq

/-- `submit_job`: rejects when not running, rejects when
`queue.qsize() >= max_queue_size`; otherwise registers the job with
status pending, bumps `total_jobs` and enqueues `(-priority, ts, job)`. -/
def submit_job (st : QueueState) (priority : Int) (ts : Nat) (jid : Nat) :
    Except SubmitError QueueState :=
  if !st.running then
    .error .notRunning
  else if st.maxQueueSize ≤ st.queue.length then
    .error .queueFull
  else
    .ok { st with
          jobs := st.jobs ++ [(jid, JobStatus.pending)]
          totalJobs := st.totalJobs + 1
          queue := st.queue ++ [submitEntry priority ts jid] }

/-- `stop`: returns immediately when not running; otherwise sets
`_running = False`, cancels and clears the workers.  The job registry and
the job statuses are not touched. -/
def stop (st : QueueState) : QueueState :=
  if !st.running then st
  else { st with running := false }

end InferenceQueueM

namespace ModelCacheM

/-!
## Model cache (`ModelCache`, model_cache.py), sequential embedding
The dictionaries `models`, `configs`, `access_order`, `model_sizes` always
hold the same key set and the eviction order is the `access_order`
iteration order, so the cache content is embedded as one association list
`entries : List (key, size-MB)` in access order (head = least recently
used, tail = most recently used).  Model handles and configs are opaque;
the size passed to `get_model` stands for `_estimate_model_memory`'s
result for that load (an environment-dependent input).

`_ensure_cache_capacity`'s count loop (`while len(models) >= max_models:
evict`) runs `_evict_lru_model`, which is a no-op on an empty cache; in
Python the loop therefore diverges exactly when `max_models = 0` and the
cache has been emptied.  The embedding adds the nonemptiness test to the
guard so the function is total; for `max_models ≥ 1` (every claim, and
the default 5) the two agree step for step.
-/

/-- Cache state: configuration, entries in access order (head = LRU),
and the `stats` counters. -/
structure CacheState where
  maxModels : Nat
  maxMemoryMb : Nat
  entries : List (String × Nat)
  hits : Nat
  misses : Nat
  evictions : Nat
  loads : Nat
  deriving Repr, DecidableEq

/-- `sum(self.model_sizes.values())`. -/
def totalBytes (st : CacheState) : Nat :=
  (st.entries.map Prod.snd).sum

/-- `model_id in self.models`. -/
def containsKey (st : CacheState) (k : String) : Bool :=
  (st.entries.find? (fun e => e.1 == k)).isSome

/-- `OrderedDict.move_to_end(k)`: the entry for `k` moves to the most
recently used end, other entries keep their relative order. -/
def moveToEnd (l : List (String × Nat)) (k : String) : List (String × Nat) :=
  match l.find? (fun e => e.1 == k) with
  | none => l
  | some e => l.eraseP (fun e => e.1 == k) ++ [e]

/-- Dict assignment `d[k] = v`: an existing key keeps its position and
gets the new value, a new key is appended at the end. -/
def insertEntry (l : List (String × Nat)) (k : String) (v : Nat) :
    List (String × Nat) :=
  if (l.find? (fun e => e.1 == k)).isSome then
    l.map (fun e => if e.1 == k then (k, v) else e)
  else
    l ++ [(k, v)]

/-- `_evict_lru_model`: returns unchanged when `access_order` is empty;
otherwise removes `next(iter(access_order))` — the head — from every dict
and bumps `stats["evictions"]`. -/
def evict_lru_model (st : CacheState) : CacheState :=
  match st.entries with
  | [] => st
  | _ :: rest => { st with entries := rest, evictions := st.evictions + 1 }

/-- Count-limit loop of `_ensure_cache_capacity`:
`while len(self.models) >= self.max_models: await self._evict_lru_model()`
(with the totality guard discussed above).  The fuel argument recurses
structurally; each iteration with a nonempty cache removes one entry, so
a fuel of `entries.length` dominates the Python loop. -/
def evictByCountFuel : Nat → CacheState → CacheState
  | 0, st => st
  | fuel + 1, st =>
    if st.maxModels ≤ st.entries.length ∧ st.entries ≠ [] then
      evictByCountFuel fuel (evict_lru_model st)
    else st

/-- The count-limit loop started with enough fuel to reach its exit. -/
def evictByCount (st : CacheState) : CacheState :=
  evictByCountFuel st.entries.length st

/-- Memory-limit loop of `_ensure_cache_capacity`: while
`current_memory + new_model_size > max_memory_mb`, break if no models
remain, evict the LRU model and recompute `current_memory`.  The first
iteration uses the `current_memory` computed before the count loop,
which may be stale.  Fuel as in `evictByCountFuel`. -/
def memLoopFuel (newSize : Nat) : Nat → CacheState → Nat → CacheState
  | 0, st, _ => st
  | fuel + 1, st, mem =>
    if st.maxMemoryMb < mem + newSize ∧ st.entries ≠ [] then
      memLoopFuel newSize fuel (evict_lru_model st) (totalBytes (evict_lru_model st))
    else st

/-- The memory-limit loop started with enough fuel to reach its exit. -/
def memLoop (st : CacheState) (mem newSize : Nat) : CacheState :=
  memLoopFuel newSize st.entries.length st mem

/-- `_ensure_cache_capacity(new_model_size)`: computes `current_memory`
once, runs the count loop, then the memory loop on the (possibly stale)
memory reading. -/
def ensure_cache_capacity (st : CacheState) (newSize : Nat) : CacheState :=
  let mem0 := totalBytes st
  memLoop (evictByCount st) mem0 newSize

/-- `_add_to_cache(model_id, model, config)` with the measured size:
ensure capacity, then install the entry in every dict. -/
def add_to_cache (st : CacheState) (k : String) (size : Nat) : CacheState :=
  let st1 := ensure_cache_capacity st size
  { st1 with entries := insertEntry st1.entries k size }

/-- `get_model(model_id, config)`: on a hit, move the key to the most
recently used end and bump `hits`; on a miss bump `misses`, load the
model (`_load_model` bumps `loads` on success) and add it to the cache.
`size` is the memory estimate of the loaded model. -/
def get_model (st : CacheState) (k : String) (size : Nat) : CacheState :=
  if containsKey st k then
    { st with entries := moveToEnd st.entries k, hits := st.hits + 1 }
  else
    let st1 := { st with misses := st.misses + 1 }
    let st2 := { st1 with loads := st1.loads + 1 }
    add_to_cache st2 k size

/-- `invalidate(model_id)`: removes the key from every dict when present,
otherwise does nothing; the stats are untouched. -/
def invalidate (st : CacheState) (k : String) : CacheState :=
  if containsKey st k then
    { st with entries := st.entries.eraseP (fun e => e.1 == k) }
  else st

/-- `clear()`: empties every dict, keeps the stats. -/
def clear (st : CacheState) : CacheState :=
  { st with entries := [] }

/-- `get_stats()["hit_rate"]`: `hits / (hits + misses)` guarded by
`(hits + misses) > 0`, else `0`. -/
def hit_rate (st : CacheState) : ℚ :=
  if st.hits + st.misses > 0 then
    (st.hits : ℚ) / ((st.hits : ℚ) + (st.misses : ℚ))
  else 0

/-- A fresh cache (`ModelCache.__init__`). -/
def initCache (maxModels maxMemoryMb : Nat) : CacheState :=
  { maxModels := maxModels, maxMemoryMb := maxMemoryMb, entries := []
    hits := 0, misses := 0, evictions := 0, loads := 0 }

/-- The cache operations a client can drive the cache through. -/
inductive CacheOp where
  | get (k : String) (size : Nat)
  | invalidate (k : String)
  | clear
  deriving Repr, DecidableEq

/-- Run one operation. -/
def runOp (st : CacheState) : CacheOp → CacheState
  | .get k size => get_model st k size
  | .invalidate k => invalidate st k
  | .clear => clear st

/-- Run a sequence of operations. -/
def runOps (st : CacheState) (ops : List CacheOp) : CacheState :=
  ops.foldl runOp st

/-- The size an operation can install (0 when it installs nothing). -/
def opSize : CacheOp → Nat
  | .get _ size => size
  | .invalidate _ => 0
  | .clear => 0

end ModelCacheM

namespace SingleFlight

/-!
## Concurrent `get_model` on one absent key (model_cache.py)
`get_model` holds `self.lock` only for the membership check; the `await
self._load_model(...)` and the subsequent `_add_to_cache` run outside it.
Coroutines on one event loop interleave at `await` points, so each caller
is a three-step program — (1) locked check, (2) load, (3) locked install —
and an execution is a word of caller indices, each letter running that
caller's next atomic section.  Handles are numbered by the load that
produced them, so "same handle" is decidable.
-/

/-- Where one `get_model` caller stands.  `adding h` / `done h` carry the
caller's local `model` variable, the handle its own load produced (the hit
path carries the cached handle). -/
inductive CallerPC where
  | ready
  | loading
  | adding (h : Nat)
  | done (h : Nat)
  deriving Repr, DecidableEq

/-- The state shared through `self`: the cache content for the one key
under scrutiny and the relevant counters. -/
structure Shared where
  cache : Option Nat
  loads : Nat
  hits : Nat
  misses : Nat
  deriving Repr, DecidableEq

/-- One atomic section of one caller, given the shared state:
  `ready`  — the locked check: hit returns the cached handle, miss
             increments `misses` and falls through to the load;
  `loading` — `_load_model`: increments `loads`, produces a fresh handle;
  `adding h` — `_add_to_cache`: installs `h`, the caller returns `h`;
  `done`   — finished, no effect. -/
def stepCaller (s : Shared) : CallerPC → CallerPC × Shared
  | .ready =>
    match s.cache with
    | some h => (.done h, { s with hits := s.hits + 1 })
    | none => (.loading, { s with misses := s.misses + 1 })
  | .loading => (.adding (s.loads + 1), { s with loads := s.loads + 1 })
  | .adding h => (.done h, { s with cache := some h })
  | .done h => (.done h, s)

/-- Run caller `i`'s next atomic section. -/
def stepAt : List CallerPC → Nat → Shared → List CallerPC × Shared
  | [], _, s => ([], s)
  | c :: cs, 0, s =>
    let p := stepCaller s c
    (p.1 :: cs, p.2)
  | c :: cs, n + 1, s =>
    let p := stepAt cs n s
    (c :: p.1, p.2)

/-- Global state of a run. -/
structure SFState where
  callers : List CallerPC
  shared : Shared
  deriving Repr, DecidableEq

/-- Execute a schedule (a word of caller indices). -/
def run (sched : List Nat) (st : SFState) : SFState :=
  sched.foldl
    (fun st i =>
      let p := stepAt st.callers i st.shared
      { callers := p.1, shared := p.2 })
    st

/-- K callers about to `Get` the one key, which is initially absent. -/
def initSF (k : Nat) : SFState :=
  { callers := List.replicate k CallerPC.ready
    shared := { cache := none, loads := 0, hits := 0, misses := 0 } }

/-- The handle caller `i` returned, if it finished. -/
def callerResult (st : SFState) (i : Nat) : Option Nat :=
  match st.callers.getD i CallerPC.ready with
  | .done h => some h
  | _ => none

/-- A caller that may still reach its load. -/
def mayLoad : CallerPC → Bool
  | .ready => true
  | .loading => true
  | _ => false

/-- Number of callers that may still load. -/
def pendingLoads (cs : List CallerPC) : Nat :=
  (cs.map (fun c => if mayLoad c then 1 else 0)).sum

/-- The fully sequential schedule: caller 0 runs its (up to) three
sections to completion, then caller 1, and so on. -/
def seqSchedule (k : Nat) : List Nat :=
  (List.range k).flatMap (fun i => [i, i, i])

end SingleFlight

/-! ## Auxiliary list lemmas -/

namespace ModelCacheM

theorem suffix_sum_le {l1 l2 : List (String × Nat)} (h : l1.IsSuffix l2) :
    (l1.map Prod.snd).sum ≤ (l2.map Prod.snd).sum := by
  obtain ⟨t, rfl⟩ := h
  simp

theorem find?_none_of_suffix {l1 l2 : List (String × Nat)}
    {p : String × Nat → Bool} (h : l1.IsSuffix l2)
    (h2 : l2.find? p = none) : l1.find? p = none := by
  rw [List.find?_eq_none] at h2 ⊢
  intro x hx
  exact h2 x (h.subset hx)

theorem eraseP_sum_of_find? {p : String × Nat → Bool} :
    ∀ {l : List (String × Nat)} {e : String × Nat}, l.find? p = some e →
      ((l.eraseP p).map Prod.snd).sum + e.2 = (l.map Prod.snd).sum ∧
      (l.eraseP p).length + 1 = l.length := by
  intro l
  induction l with
  | nil => intro e h; simp at h
  | cons a as ih =>
    intro e h
    by_cases hp : p a
    · rw [List.find?_cons_of_pos _ hp] at h
      cases h
      rw [List.eraseP_cons_of_pos hp]
      constructor
      · simp [Nat.add_comm]
      · simp
    · rw [List.find?_cons_of_neg _ hp] at h
      rw [List.eraseP_cons_of_neg (by simpa using hp)]
      obtain ⟨h1, h2⟩ := ih h
      constructor
      · simp only [List.map_cons, List.sum_cons]
        omega
      · simp only [List.length_cons]
        omega

theorem sublist_sum_le : ∀ {l1 l2 : List Nat}, l1.Sublist l2 → l1.sum ≤ l2.sum := by
  intro l1 l2 h
  induction h with
  | slnil => exact Nat.le_refl 0
  | cons a h ih => simp; omega
  | cons₂ a h ih => simp; omega

/-! ## Field-preservation and bound lemmas for the cache loops -/

theorem evict_fields (st : CacheState) :
    (evict_lru_model st).maxModels = st.maxModels ∧
    (evict_lru_model st).maxMemoryMb = st.maxMemoryMb ∧
    (evict_lru_model st).hits = st.hits ∧
    (evict_lru_model st).misses = st.misses ∧
    (evict_lru_model st).loads = st.loads := by
  unfold evict_lru_model
  cases st.entries <;> simp

theorem evict_entries_suffix (st : CacheState) :
    (evict_lru_model st).entries.IsSuffix st.entries := by
  unfold evict_lru_model
  cases h : st.entries with
  | nil => simp [h]
  | cons a rest => exact ⟨[a], rfl⟩

theorem evict_length_lt (st : CacheState) (h : st.entries ≠ []) :
    (evict_lru_model st).entries.length + 1 = st.entries.length := by
  unfold evict_lru_model
  cases he : st.entries with
  | nil => exact absurd he h
  | cons a rest => simp

theorem evictByCountFuel_fields : ∀ (fuel : Nat) (st : CacheState),
    (evictByCountFuel fuel st).maxModels = st.maxModels ∧
    (evictByCountFuel fuel st).maxMemoryMb = st.maxMemoryMb ∧
    (evictByCountFuel fuel st).hits = st.hits ∧
    (evictByCountFuel fuel st).misses = st.misses ∧
    (evictByCountFuel fuel st).loads = st.loads := by
  intro fuel
  induction fuel with
  | zero => intro st; exact ⟨rfl, rfl, rfl, rfl, rfl⟩
  | succ n ih =>
    intro st
    unfold evictByCountFuel
    by_cases h : st.maxModels ≤ st.entries.length ∧ st.entries ≠ []
    · rw [if_pos h]
      have h1 := ih (evict_lru_model st)
      have h2 := evict_fields st
      omega
    · rw [if_neg h]
      exact ⟨rfl, rfl, rfl, rfl, rfl⟩

theorem evictByCountFuel_entries_suffix : ∀ (fuel : Nat) (st : CacheState),
    (evictByCountFuel fuel st).entries.IsSuffix st.entries := by
  intro fuel
  induction fuel with
  | zero => intro st; exact List.suffix_refl _
  | succ n ih =>
    intro st
    unfold evictByCountFuel
    by_cases h : st.maxModels ≤ st.entries.length ∧ st.entries ≠ []
    · rw [if_pos h]
      exact (ih (evict_lru_model st)).trans (evict_entries_suffix st)
    · rw [if_neg h]

theorem evictByCountFuel_length_lt : ∀ (fuel : Nat) (st : CacheState),
    st.entries.length ≤ fuel → 1 ≤ st.maxModels →
    (evictByCountFuel fuel st).entries.length < st.maxModels := by
  intro fuel
  induction fuel with
  | zero =>
    intro st hf h1
    unfold evictByCountFuel
    omega
  | succ n ih =>
    intro st hf h1
    unfold evictByCountFuel
    by_cases h : st.maxModels ≤ st.entries.length ∧ st.entries ≠ []
    · rw [if_pos h]
      have hlen := evict_length_lt st h.2
      have hm := (evict_fields st).1
      have := ih (evict_lru_model st) (by omega) (by omega)
      omega
    · rw [if_neg h]
      rw [Classical.not_and_iff_or_not_not] at h
      rcases h with h | h
      · omega
      · have he : st.entries = [] := by
          by_contra hc
          exact h hc
        rw [he]
        simpa using h1

theorem evictByCount_fields (st : CacheState) :
    (evictByCount st).maxModels = st.maxModels ∧
    (evictByCount st).maxMemoryMb = st.maxMemoryMb ∧
    (evictByCount st).hits = st.hits ∧
    (evictByCount st).misses = st.misses ∧
    (evictByCount st).loads = st.loads :=
  evictByCountFuel_fields st.entries.length st

theorem evictByCount_entries_suffix (st : CacheState) :
    (evictByCount st).entries.IsSuffix st.entries :=
  evictByCountFuel_entries_suffix st.entries.length st

theorem evictByCount_length_lt (st : CacheState) :
    1 ≤ st.maxModels → (evictByCount st).entries.length < st.maxModels :=
  evictByCountFuel_length_lt st.entries.length st (Nat.le_refl _)

theorem memLoopFuel_fields (newSize : Nat) : ∀ (fuel : Nat) (st : CacheState) (mem : Nat),
    (memLoopFuel newSize fuel st mem).maxModels = st.maxModels ∧
    (memLoopFuel newSize fuel st mem).maxMemoryMb = st.maxMemoryMb ∧
    (memLoopFuel newSize fuel st mem).hits = st.hits ∧
    (memLoopFuel newSize fuel st mem).misses = st.misses ∧
    (memLoopFuel newSize fuel st mem).loads = st.loads := by
  intro fuel
  induction fuel with
  | zero => intro st mem; exact ⟨rfl, rfl, rfl, rfl, rfl⟩
  | succ n ih =>
    intro st mem
    unfold memLoopFuel
    by_cases h : st.maxMemoryMb < mem + newSize ∧ st.entries ≠ []
    · rw [if_pos h]
      have h1 := ih (evict_lru_model st) (totalBytes (evict_lru_model st))
      have h2 := evict_fields st
      omega
    · rw [if_neg h]
      exact ⟨rfl, rfl, rfl, rfl, rfl⟩

theorem memLoopFuel_entries_suffix (newSize : Nat) :
    ∀ (fuel : Nat) (st : CacheState) (mem : Nat),
    (memLoopFuel newSize fuel st mem).entries.IsSuffix st.entries := by
  intro fuel
  induction fuel with
  | zero => intro st mem; exact List.suffix_refl _
  | succ n ih =>
    intro st mem
    unfold memLoopFuel
    by_cases h : st.maxMemoryMb < mem + newSize ∧ st.entries ≠ []
    · rw [if_pos h]
      exact (ih (evict_lru_model st) _).trans (evict_entries_suffix st)
    · rw [if_neg h]

theorem memLoopFuel_bytes_bound (newSize : Nat) :
    ∀ (fuel : Nat) (st : CacheState) (mem : Nat),
    st.entries.length ≤ fuel → totalBytes st ≤ mem →
    (totalBytes (memLoopFuel newSize fuel st mem) + newSize ≤ st.maxMemoryMb ∨
      (memLoopFuel newSize fuel st mem).entries = []) := by
  intro fuel
  induction fuel with
  | zero =>
    intro st mem hf hmem
    right
    unfold memLoopFuel
    cases he : st.entries with
    | nil => rfl
    | cons a rest => rw [he] at hf; simp at hf
  | succ n ih =>
    intro st mem hf hmem
    unfold memLoopFuel
    by_cases h : st.maxMemoryMb < mem + newSize ∧ st.entries ≠ []
    · rw [if_pos h]
      have hlen := evict_length_lt st h.2
      have hmm := (evict_fields st).2.1
      rcases ih (evict_lru_model st) (totalBytes (evict_lru_model st))
        (by omega) (Nat.le_refl _) with h' | h'
      · left
        omega
      · right
        exact h'
    · rw [if_neg h]
      rw [Classical.not_and_iff_or_not_not] at h
      rcases h with h | h
      · left
        have := Nat.le_of_not_lt h
        omega
      · right
        by_contra hc
        exact h hc

theorem memLoop_fields (st : CacheState) (mem newSize : Nat) :
    (memLoop st mem newSize).maxModels = st.maxModels ∧
    (memLoop st mem newSize).maxMemoryMb = st.maxMemoryMb ∧
    (memLoop st mem newSize).hits = st.hits ∧
    (memLoop st mem newSize).misses = st.misses ∧
    (memLoop st mem newSize).loads = st.loads :=
  memLoopFuel_fields newSize st.entries.length st mem

theorem memLoop_entries_suffix (st : CacheState) (mem newSize : Nat) :
    (memLoop st mem newSize).entries.IsSuffix st.entries :=
  memLoopFuel_entries_suffix newSize st.entries.length st mem

theorem memLoop_bytes_bound (st : CacheState) (mem newSize : Nat) :
    totalBytes st ≤ mem →
    (totalBytes (memLoop st mem newSize) + newSize ≤ st.maxMemoryMb ∨
      (memLoop st mem newSize).entries = []) :=
  memLoopFuel_bytes_bound newSize st.entries.length st mem (Nat.le_refl _)

/-! ## Capacity and statistics of `add_to_cache`, `get_model` and friends -/

theorem contains_eq_false_iff (st : CacheState) (k : String) :
    containsKey st k = false ↔ st.entries.find? (fun e => e.1 == k) = none := by
  unfold containsKey
  cases st.entries.find? (fun e => e.1 == k) <;> simp

theorem insertEntry_absent (l : List (String × Nat)) (k : String) (v : Nat)
    (h : l.find? (fun e => e.1 == k) = none) :
    insertEntry l k v = l ++ [(k, v)] := by
  unfold insertEntry
  rw [h]
  simp

theorem add_to_cache_fields (st : CacheState) (k : String) (v : Nat) :
    (add_to_cache st k v).maxModels = st.maxModels ∧
    (add_to_cache st k v).maxMemoryMb = st.maxMemoryMb ∧
    (add_to_cache st k v).hits = st.hits ∧
    (add_to_cache st k v).misses = st.misses ∧
    (add_to_cache st k v).loads = st.loads := by
  unfold add_to_cache ensure_cache_capacity
  have h1 := memLoop_fields (evictByCount st) (totalBytes st) v
  have h2 := evictByCount_fields st
  simp only []
  omega

theorem add_to_cache_bounds (st : CacheState) (k : String) (v S : Nat)
    (hk : containsKey st k = false) (hm : 1 ≤ st.maxModels) (hv : v ≤ S) :
    (add_to_cache st k v).entries.length ≤ st.maxModels ∧
    totalBytes (add_to_cache st k v) ≤ st.maxMemoryMb + S := by
  have hsufC := evictByCount_entries_suffix st
  have hsufM := memLoop_entries_suffix (evictByCount st) (totalBytes st) v
  have hfC := evictByCount_fields st
  have hfM := memLoop_fields (evictByCount st) (totalBytes st) v
  have hlenC := evictByCount_length_lt st hm
  have hbytes := memLoop_bytes_bound (evictByCount st) (totalBytes st) v
    (suffix_sum_le hsufC)
  have hkC : (evictByCount st).entries.find? (fun e => e.1 == k) = none :=
    find?_none_of_suffix hsufC ((contains_eq_false_iff st k).1 hk)
  have hkM : (memLoop (evictByCount st) (totalBytes st) v).entries.find?
      (fun e => e.1 == k) = none :=
    find?_none_of_suffix hsufM hkC
  unfold add_to_cache ensure_cache_capacity
  simp only []
  rw [insertEntry_absent _ _ _ hkM]
  constructor
  · have hlenM : (memLoop (evictByCount st) (totalBytes st) v).entries.length ≤
        (evictByCount st).entries.length :=
      hsufM.sublist.length_le
    simp only [List.length_append, List.length_singleton]
    omega
  · have : totalBytes
        { memLoop (evictByCount st) (totalBytes st) v with
          entries := (memLoop (evictByCount st) (totalBytes st) v).entries ++ [(k, v)] } =
        totalBytes (memLoop (evictByCount st) (totalBytes st) v) + v := by
      simp [totalBytes]
    rw [this]
    rcases hbytes with hb | hb
    · omega
    · have h0 : totalBytes (memLoop (evictByCount st) (totalBytes st) v) = 0 := by
        unfold totalBytes at hb ⊢
        rw [hb]
        rfl
      omega

theorem moveToEnd_measures (l : List (String × Nat)) (k : String)
    (e : String × Nat) (h : l.find? (fun e => e.1 == k) = some e) :
    (moveToEnd l k).length = l.length ∧
    ((moveToEnd l k).map Prod.snd).sum = (l.map Prod.snd).sum := by
  obtain ⟨hsum, hlen⟩ := eraseP_sum_of_find? h
  unfold moveToEnd
  rw [h]
  constructor
  · simp only [List.length_append, List.length_singleton]
    omega
  · simp only [List.map_append, List.sum_append, List.map_singleton,
      List.sum_singleton]
    omega

theorem get_model_inv (st : CacheState) (k : String) (v S : Nat)
    (hm : 1 ≤ st.maxModels) (hv : v ≤ S)
    (hlen : st.entries.length ≤ st.maxModels)
    (hbytes : totalBytes st ≤ st.maxMemoryMb + S) :
    (get_model st k v).maxModels = st.maxModels ∧
    (get_model st k v).maxMemoryMb = st.maxMemoryMb ∧
    (get_model st k v).entries.length ≤ st.maxModels ∧
    totalBytes (get_model st k v) ≤ st.maxMemoryMb + S := by
  unfold get_model
  by_cases h : containsKey st k
  · rw [if_pos h]
    unfold containsKey at h
    cases hf : st.entries.find? (fun e => e.1 == k) with
    | none => rw [hf] at h; simp at h
    | some e =>
      obtain ⟨hl, hs⟩ := moveToEnd_measures st.entries k e hf
      refine ⟨rfl, rfl, ?_, ?_⟩
      · simpa [hl] using hlen
      · simpa [totalBytes, hs] using hbytes
  · rw [if_neg h]
    have h' : containsKey st k = false := by
      cases hck : containsKey st k
      · rfl
      · exact absurd hck h
    have hb := add_to_cache_bounds
      { st with misses := st.misses + 1, loads := st.loads + 1 } k v S h' hm hv
    have hf := add_to_cache_fields
      { st with misses := st.misses + 1, loads := st.loads + 1 } k v
    exact ⟨hf.1, hf.2.1, hb.1, hb.2⟩

theorem eraseP_length_sum_le (l : List (String × Nat)) (p : String × Nat → Bool) :
    (l.eraseP p).length ≤ l.length ∧
    ((l.eraseP p).map Prod.snd).sum ≤ (l.map Prod.snd).sum := by
  have hsub : (l.eraseP p).Sublist l := List.eraseP_sublist l
  exact ⟨hsub.length_le, sublist_sum_le (hsub.map Prod.snd)⟩

theorem runOp_inv (st : CacheState) (op : CacheOp) (S : Nat)
    (hm : 1 ≤ st.maxModels) (hop : opSize op ≤ S)
    (hlen : st.entries.length ≤ st.maxModels)
    (hbytes : totalBytes st ≤ st.maxMemoryMb + S) :
    (runOp st op).maxModels = st.maxModels ∧
    (runOp st op).maxMemoryMb = st.maxMemoryMb ∧
    (runOp st op).entries.length ≤ st.maxModels ∧
    totalBytes (runOp st op) ≤ st.maxMemoryMb + S := by
  cases op with
  | get k v =>
    exact get_model_inv st k v S hm (by simpa [opSize] using hop) hlen hbytes
  | invalidate k =>
    simp only [runOp]
    unfold invalidate
    by_cases h : containsKey st k
    · rw [if_pos h]
      obtain ⟨h1, h2⟩ := eraseP_length_sum_le st.entries (fun e => e.1 == k)
      refine ⟨rfl, rfl, ?_, ?_⟩
      · simpa using (Nat.le_trans h1 hlen)
      · exact Nat.le_trans (by simpa [totalBytes] using h2) hbytes
    · rw [if_neg h]
      exact ⟨rfl, rfl, hlen, hbytes⟩
  | clear =>
    simp only [runOp]
    unfold clear
    refine ⟨rfl, rfl, ?_, ?_⟩
    · simp
    · simp [totalBytes]

theorem find?_eraseP_none_of_nodup {q : String × Nat → Bool} (k : String)
    (hq : ∀ x, q x = true → x.1 = k) :
    ∀ l : List (String × Nat), (l.map Prod.fst).Nodup →
      (l.eraseP q).find? q = none := by
  intro l
  induction l with
  | nil => intro h; simp
  | cons a as ih =>
    intro h
    simp only [List.map_cons, List.nodup_cons] at h
    by_cases hp : q a = true
    · rw [List.eraseP_cons_of_pos hp]
      rw [List.find?_eq_none]
      intro x hx hqx
      exact h.1 (List.mem_map.2 ⟨x, hx, (hq x hqx).trans (hq a hp).symm⟩)
    · rw [List.eraseP_cons_of_neg (by simpa using hp)]
      rw [List.find?_cons_of_neg _ hp]
      exact ih h.2

theorem find?_eraseP_none (l : List (String × Nat)) (k : String)
    (h : (l.map Prod.fst).Nodup) :
    (l.eraseP (fun e => e.1 == k)).find? (fun e => e.1 == k) = none :=
  find?_eraseP_none_of_nodup k (fun x hx => by simpa using hx) l h

theorem runOps_inv : ∀ (ops : List CacheOp) (st : CacheState) (S : Nat),
    1 ≤ st.maxModels → (∀ op ∈ ops, opSize op ≤ S) →
    st.entries.length ≤ st.maxModels →
    totalBytes st ≤ st.maxMemoryMb + S →
    (runOps st ops).maxModels = st.maxModels ∧
    (runOps st ops).maxMemoryMb = st.maxMemoryMb ∧
    (runOps st ops).entries.length ≤ st.maxModels ∧
    totalBytes (runOps st ops) ≤ st.maxMemoryMb + S := by
  intro ops
  induction ops with
  | nil =>
    intro st S hm hops hlen hbytes
    exact ⟨rfl, rfl, hlen, hbytes⟩
  | cons op ops ih =>
    intro st S hm hops hlen hbytes
    have hop : opSize op ≤ S := hops op (by simp)
    have h1 := runOp_inv st op S hm hop hlen hbytes
    have h2 := ih (runOp st op) S (by omega)
      (fun o ho => hops o (by simp [ho]))
      (by omega) (by omega)
    unfold runOps at *
    simp only [List.foldl_cons]
    refine ⟨?_, ?_, ?_, ?_⟩ <;> omega

theorem invalidate_fields (st : CacheState) (k : String) :
    (invalidate st k).misses = st.misses ∧
    (invalidate st k).loads = st.loads ∧
    (invalidate st k).hits = st.hits := by
  unfold invalidate
  by_cases h : containsKey st k
  · rw [if_pos h]
    exact ⟨rfl, rfl, rfl⟩
  · rw [if_neg h]
    exact ⟨rfl, rfl, rfl⟩

theorem get_model_miss_stats (st : CacheState) (k : String) (size : Nat)
    (h : containsKey st k = false) :
    (get_model st k size).misses = st.misses + 1 ∧
    (get_model st k size).loads = st.loads + 1 := by
  unfold get_model
  rw [if_neg (by simp [h])]
  simp only []
  have hf := add_to_cache_fields
    { st with misses := st.misses + 1, loads := st.loads + 1 } k size
  simp only [] at hf
  exact ⟨hf.2.2.2.1, hf.2.2.2.2⟩

end ModelCacheM

namespace InferenceQueueM

/-! ## Order lemmas for the priority-queue pop -/

theorem keyLe_refl (a : Int × Nat) : keyLe a a := by
  unfold keyLe
  right
  exact ⟨rfl, Nat.le_refl _⟩

theorem keyLe_of_keyLt {a b : Int × Nat} (h : keyLt a b) : keyLe a b := by
  unfold keyLt at h
  unfold keyLe
  omega

theorem keyLe_of_not_keyLt {a b : Int × Nat} (h : ¬ keyLt a b) : keyLe b a := by
  unfold keyLt at h
  unfold keyLe
  omega

theorem keyLe_trans {a b c : Int × Nat} (h1 : keyLe a b) (h2 : keyLe b c) :
    keyLe a c := by
  unfold keyLe at *
  omega

theorem popMin_cons_ne_none (e : QEntry) (es : List QEntry) :
    popMin (e :: es) ≠ none := by
  unfold popMin
  cases hpm : popMin es with
  | none => simp
  | some p =>
    obtain ⟨m, rest⟩ := p
    simp only []
    split <;> simp

theorem popMin_isLeast : ∀ (q : List QEntry) (e : QEntry) (rest : List QEntry),
    popMin q = some (e, rest) → ∀ e' ∈ q, keyLe (entKey e) (entKey e') := by
  intro q
  induction q with
  | nil => intro e rest h; simp [popMin] at h
  | cons a as ih =>
    intro e rest h e' he'
    unfold popMin at h
    cases hpm : popMin as with
    | none =>
      rw [hpm] at h
      simp only [Option.some.injEq, Prod.mk.injEq] at h
      obtain ⟨rfl, rfl⟩ := h
      have has : as = [] := by
        cases as with
        | nil => rfl
        | cons b bs => exact absurd hpm (popMin_cons_ne_none b bs)
      subst has
      simp only [List.mem_singleton] at he'
      subst he'
      exact keyLe_refl _
    | some p =>
      obtain ⟨m, rest'⟩ := p
      rw [hpm] at h
      simp only [] at h
      split at h
      · next hlt =>
        simp only [Option.some.injEq, Prod.mk.injEq] at h
        obtain ⟨rfl, rfl⟩ := h
        rcases List.mem_cons.1 he' with rfl | hmem
        · exact keyLe_of_keyLt hlt
        · exact ih _ _ hpm _ hmem
      · next hlt =>
        simp only [Option.some.injEq, Prod.mk.injEq] at h
        obtain ⟨rfl, rfl⟩ := h
        rcases List.mem_cons.1 he' with rfl | hmem
        · exact keyLe_refl _
        · exact keyLe_trans (keyLe_of_not_keyLt hlt) (ih _ _ hpm _ hmem)

end InferenceQueueM

namespace SingleFlight

/-! ## Load-count bound for interleaved `get_model` callers -/

theorem stepCaller_bound (s : Shared) (c : CallerPC) :
    (stepCaller s c).2.loads + (if mayLoad (stepCaller s c).1 then 1 else 0) ≤
      s.loads + (if mayLoad c then 1 else 0) := by
  cases c with
  | ready =>
    cases hc : s.cache with
    | none => simp [stepCaller, mayLoad, hc]
    | some h => simp [stepCaller, mayLoad, hc]
  | loading => simp [stepCaller, mayLoad]
  | adding h => simp [stepCaller, mayLoad]
  | done h => simp [stepCaller, mayLoad]

theorem pendingLoads_cons (c : CallerPC) (cs : List CallerPC) :
    pendingLoads (c :: cs) = (if mayLoad c then 1 else 0) + pendingLoads cs := by
  simp [pendingLoads]

theorem stepAt_bound : ∀ (cs : List CallerPC) (i : Nat) (s : Shared),
    (stepAt cs i s).2.loads + pendingLoads (stepAt cs i s).1 ≤
      s.loads + pendingLoads cs := by
  intro cs
  induction cs with
  | nil =>
    intro i s
    simp [stepAt]
  | cons c cs ih =>
    intro i s
    cases i with
    | zero =>
      have h := stepCaller_bound s c
      simp only [stepAt, pendingLoads_cons]
      omega
    | succ n =>
      have h := ih n s
      simp only [stepAt, pendingLoads_cons]
      omega

theorem run_bound : ∀ (sched : List Nat) (st : SFState),
    (run sched st).shared.loads + pendingLoads (run sched st).callers ≤
      st.shared.loads + pendingLoads st.callers := by
  intro sched
  induction sched with
  | nil => intro st; exact Nat.le_refl _
  | cons i sched ih =>
    intro st
    have h1 := stepAt_bound st.callers i st.shared
    have h2 := ih { callers := (stepAt st.callers i st.shared).1
                    shared := (stepAt st.callers i st.shared).2 }
    unfold run at *
    simp only [List.foldl_cons]
    exact Nat.le_trans h2 h1

theorem pendingLoads_replicate (k : Nat) :
    pendingLoads (List.replicate k CallerPC.ready) = k := by
  induction k with
  | zero => simp [pendingLoads]
  | succ n ih =>
    rw [List.replicate_succ, pendingLoads_cons]
    simp [mayLoad, ih]
    omega

end SingleFlight


/-! # Claim theorems -/

open StreamM InferenceQueueM ModelCacheM SingleFlight

/-- Claim C1: jobs are dispatched in strict priority order.  The dequeued
entry minimises the heap key over the whole queue; translated through
`submitEntry` (which stores `-priority`), the dequeued job has maximal
priority and, among equal priorities, the earliest submission timestamp.
Concretely, J1(p=1,ts=1), J2(p=1,ts=2), J3(p=5,ts=3), J4(p=3,ts=4)
dispatch in the order J3, J4, J1, J2.  The pairwise-distinct-key
hypothesis matches the heap's behaviour: on a full key tie Python would
compare the `InferenceJob` payloads and raise `TypeError`. -/
theorem c1_priority_order_dispatch :
    (∀ (q : List QEntry) (e : QEntry) (rest : List QEntry),
      q.Pairwise (fun a b => entKey a ≠ entKey b) →
      popMin q = some (e, rest) →
      ∀ e' ∈ q, keyLe (entKey e) (entKey e')) ∧
    (∀ (p q : Int) (ts ts' : Nat) (j j' : Nat),
      keyLe (entKey (submitEntry p ts j)) (entKey (submitEntry q ts' j')) ↔
        (q < p ∨ (p = q ∧ ts ≤ ts'))) ∧
    drainJobs [submitEntry 1 1 1, submitEntry 1 2 2, submitEntry 5 3 3,
      submitEntry 3 4 4] = [3, 4, 1, 2] := by
  refine ⟨?_, ?_, by decide⟩
  · intro q e rest hdist h
    exact popMin_isLeast q e rest h
  · intro p q ts ts' j j'
    unfold keyLe entKey submitEntry
    simp only []
    omega

/-- Witness for C1 at a two-job queue: the popped high-priority job's key
is below the other job's key. -/
theorem c1_priority_order_dispatch_witness :
    keyLe (entKey (submitEntry 5 3 3)) (entKey (submitEntry 1 1 1)) :=
  c1_priority_order_dispatch.1 [submitEntry 1 1 1, submitEntry 5 3 3]
    (submitEntry 5 3 3) [submitEntry 1 1 1]
    (by simp [List.pairwise_cons]; decide)
    (by decide) (submitEntry 1 1 1) (by simp)

/-- Claim C2 counterexample: two concurrent `get_model` callers on the
same absent key.  `get_model` releases the lock before `_load_model`, so
in the interleaving where both callers run the locked membership check
before either load finishes, the provider load runs twice (not once) and
the two callers return different handles. -/
theorem c2_single_flight_counterexample :
    (run [0, 1, 0, 1, 0, 1] (initSF 2)).shared.loads = 2 ∧
    callerResult (run [0, 1, 0, 1, 0, 1] (initSF 2)) 0 = some 1 ∧
    callerResult (run [0, 1, 0, 1, 0, 1] (initSF 2)) 1 = some 2 ∧
    ¬((run [0, 1, 0, 1, 0, 1] (initSF 2)).shared.loads = 1) := by
  decide

/-- Claim C2 amended: for K concurrent `Get` callers on the same absent
key the provider load is invoked at most K times (at most once per
caller) over every interleaving, not exactly once; when the callers run
sequentially, the load is invoked exactly once and both callers receive
the same handle. -/
theorem c2_loads_bounded_amended :
    (∀ (sched : List Nat) (k : Nat),
      (run sched (initSF k)).shared.loads ≤ k) ∧
    (run (seqSchedule 2) (initSF 2)).shared.loads = 1 ∧
    callerResult (run (seqSchedule 2) (initSF 2)) 0 =
      callerResult (run (seqSchedule 2) (initSF 2)) 1 := by
  refine ⟨?_, by decide, by decide⟩
  intro sched k
  have h := run_bound sched (initSF k)
  have h2 : pendingLoads (initSF k).callers = k := pendingLoads_replicate k
  have h3 : (initSF k).shared.loads = 0 := rfl
  omega

/-- Claim C3: after any sequence of cache operations (get with eviction,
invalidate, clear) from a fresh cache, the entry count stays within
`max_models` and the cached bytes stay within `max_memory_mb` plus the
size of one installed entry (`S` bounds every installed size). -/
theorem c3_capacity_invariant (maxModels maxMemoryMb S : Nat)
    (ops : List CacheOp) (hm : 1 ≤ maxModels)
    (hops : ∀ op ∈ ops, opSize op ≤ S) :
    (runOps (initCache maxModels maxMemoryMb) ops).entries.length ≤ maxModels ∧
    totalBytes (runOps (initCache maxModels maxMemoryMb) ops) ≤ maxMemoryMb + S := by
  have h := runOps_inv ops (initCache maxModels maxMemoryMb) S hm hops
    (by simp [initCache]) (by simp [initCache, totalBytes])
  exact ⟨h.2.2.1, h.2.2.2⟩

/-- Witness for C3: three 100 MB loads into a 2-entry/150 MB cache, then
an invalidation and a clear, respect both bounds. -/
theorem c3_capacity_invariant_witness :
    (runOps (initCache 2 150) [CacheOp.get "m1" 100, CacheOp.get "m2" 100,
      CacheOp.get "m3" 100, CacheOp.invalidate "m1", CacheOp.clear]).entries.length ≤ 2 ∧
    totalBytes (runOps (initCache 2 150) [CacheOp.get "m1" 100, CacheOp.get "m2" 100,
      CacheOp.get "m3" 100, CacheOp.invalidate "m1", CacheOp.clear]) ≤ 150 + 100 :=
  c3_capacity_invariant 2 150 100 _ (by decide) (by decide)

/-- Claim C4: `submit_job` boundary behaviour.  With the queue one below
`max_queue_size` a running scheduler accepts the job, registers it as
pending and enqueues it; with the queue at `max_queue_size` it fails with
queue-full; when stopped it fails with not-running.  The embedding is a
pure function, so on the error paths the returned value carries no state
change — matching Python, which raises before creating the job. -/
theorem c4_submit_admission_boundary (st : QueueState) (p : Int) (ts jid : Nat) :
    (st.running = true → st.queue.length + 1 = st.maxQueueSize →
      submit_job st p ts jid = Except.ok
        { st with jobs := st.jobs ++ [(jid, JobStatus.pending)]
                  totalJobs := st.totalJobs + 1
                  queue := st.queue ++ [submitEntry p ts jid] }) ∧
    (st.running = true → st.queue.length = st.maxQueueSize →
      submit_job st p ts jid = Except.error SubmitError.queueFull) ∧
    (st.running = false → submit_job st p ts jid = Except.error SubmitError.notRunning) := by
  refine ⟨?_, ?_, ?_⟩
  · intro hr hl
    unfold submit_job
    rw [hr]
    rw [if_neg (by simp)]
    rw [if_neg (by omega)]
  · intro hr hl
    unfold submit_job
    rw [hr]
    rw [if_neg (by simp)]
    rw [if_pos (by omega)]
  · intro hr
    unfold submit_job
    rw [hr]
    rw [if_pos (by simp)]

/-- Witness for C4 at `max_queue_size = 1` and an empty queue: the submit
succeeds and registers the pending job. -/
theorem c4_submit_admission_boundary_witness :
    submit_job { running := true, maxQueueSize := 1, queue := [],
                 jobs := [], totalJobs := 0 } 1 1 7
      = Except.ok { running := true, maxQueueSize := 1,
                    queue := [submitEntry 1 1 7],
                    jobs := [(7, JobStatus.pending)], totalJobs := 1 } :=
  (c4_submit_admission_boundary
    { running := true, maxQueueSize := 1, queue := [], jobs := [], totalJobs := 0 }
    1 1 7).1 rfl rfl

/-- Claim C5: the frame queue is drop-oldest.  A put into a full queue
discards the head frame, admits the new one at the tail and increments
`dropped_frames`; with capacity 2 and frames 1..4 produced while the
processor is blocked, the processor consumes exactly frames 3 and 4 and
`dropped_frames = 2`. -/
theorem c5_frame_drop_oldest :
    (∀ (q : FrameQueue) (f f0 : Nat) (rest : List Nat),
      q.frames = f0 :: rest → q.frames.length = q.cap →
      putFrame q f = { q with frames := rest ++ [f], dropped := q.dropped + 1 }) ∧
    drainFrames (putFrames { frames := [], cap := 2, dropped := 0 } [1, 2, 3, 4]) = [3, 4] ∧
    (putFrames { frames := [], cap := 2, dropped := 0 } [1, 2, 3, 4]).dropped = 2 := by
  refine ⟨?_, by decide, by decide⟩
  intro q f f0 rest h1 h2
  unfold putFrame
  rw [if_neg (by omega)]
  rw [h1]

/-- Witness for C5 at a full one-slot queue: frame 9 is dropped, frame 5
admitted, the drop counter incremented. -/
theorem c5_frame_drop_oldest_witness :
    putFrame { frames := [9], cap := 1, dropped := 0 } 5
      = { frames := [5], cap := 1, dropped := 1 } :=
  c5_frame_drop_oldest.1 { frames := [9], cap := 1, dropped := 0 } 5 9 [] rfl rfl

/-- Claim C6: motion detection uses strict comparisons.  No event is
emitted iff the motion pixel count is at most the threshold (equality
emits nothing); an emitted event reports the pixel count, the count of
significant contours, and at most 10 bounding boxes all of whose contour
areas strictly exceed 500; a contour of area exactly 500 (or less) is
never significant. -/
theorem c6_motion_strict_thresholds :
    (∀ (n th : Nat) (cs : List Contour),
      process_frame n th cs = none ↔ n ≤ th) ∧
    (∀ (n th : Nat) (cs : List Contour) (e : MotionEvent),
      process_frame n th cs = some e →
      e.motion_pixels = n ∧ th < n ∧
      e.contour_count = (significantContours cs).length ∧
      e.bounding_boxes.length ≤ 10 ∧
      ∀ b ∈ e.bounding_boxes, 500 < b.area) ∧
    (∀ (cs : List Contour) (c : Contour), c.area ≤ 500 →
      c ∉ significantContours cs) := by
  refine ⟨?_, ?_, ?_⟩
  · intro n th cs
    unfold process_frame
    by_cases h : n > th
    · rw [if_pos h]
      exact iff_of_false (by simp) (by omega)
    · rw [if_neg h]
      exact iff_of_true rfl (by omega)
  · intro n th cs e h
    unfold process_frame at h
    by_cases hn : n > th
    · rw [if_pos hn] at h
      simp only [Option.some.injEq] at h
      subst h
      refine ⟨rfl, hn, rfl, ?_, ?_⟩
      · simp only [List.length_map, List.length_take]
        omega
      · intro b hb
        simp only [List.mem_map] at hb
        obtain ⟨c, hc, hbe⟩ := hb
        subst hbe
        have hc' : c ∈ significantContours cs :=
          (List.take_sublist 10 _).subset hc
        unfold significantContours at hc'
        simp only [List.mem_filter, decide_eq_true_eq] at hc'
        exact hc'.2
    · rw [if_neg hn] at h
      exact absurd h (by simp)
  · intro cs c hle hmem
    unfold significantContours at hmem
    simp only [List.mem_filter, decide_eq_true_eq] at hmem
    omega

/-- Witness for C6: a pixel count exactly at the threshold emits no
event. -/
theorem c6_motion_strict_thresholds_witness :
    process_frame 5000 5000 [] = none :=
  (c6_motion_strict_thresholds.1 5000 5000 []).2 (Nat.le_refl _)

/-- Claim C7 counterexample: a scheduler holding one admitted,
never-dispatched job with status pending.  After `stop` returns, that job
still has status pending — it is not marked failed — contradicting the
claim that no job remains pending. -/
theorem c7_stop_counterexample :
    (stop { running := true, maxQueueSize := 10, queue := [submitEntry 1 1 1],
            jobs := [(1, JobStatus.pending)], totalJobs := 1 }).jobs
      = [(1, JobStatus.pending)] ∧
    JobStatus.pending ≠ JobStatus.failed := by
  decide

/-- Claim C7 amended: after `stop` returns, admission is disabled
(`_running = False`), but the job registry, every job status and the
queued entries are left exactly as they were; admitted, never-dispatched
jobs therefore remain pending and are never marked failed with reason
shutting-down. -/
theorem c7_stop_amended (st : QueueState) :
    (stop st).running = false ∧ (stop st).jobs = st.jobs ∧
    (stop st).queue = st.queue ∧ (stop st).totalJobs = st.totalJobs := by
  unfold stop
  cases hr : st.running <;> simp [hr]

/-- Claim C8: LRU eviction with access order refreshed on every hit.  A
successful `get_model` on a cached key moves that key to the
most-recently-used end; and in the concrete scenario (max 100 entries,
300 MB; load m1, m2, m3 at 100 MB; hit m1; load m4 at 100 MB) exactly m2
is evicted, the cache holds m3, m1, m4 and 300 MB. -/
theorem c8_lru_eviction :
    (∀ (st : CacheState) (k : String) (size : Nat),
      containsKey st k = true →
      ∃ v, (get_model st k size).entries.getLast? = some (k, v)) ∧
    ((get_model (get_model (get_model (get_model (get_model
        (initCache 100 300) "m1" 100) "m2" 100) "m3" 100) "m1" 100) "m4" 100).entries
      = [("m3", 100), ("m1", 100), ("m4", 100)] ∧
     totalBytes (get_model (get_model (get_model (get_model (get_model
        (initCache 100 300) "m1" 100) "m2" 100) "m3" 100) "m1" 100) "m4" 100) = 300 ∧
     (get_model (get_model (get_model (get_model (get_model
        (initCache 100 300) "m1" 100) "m2" 100) "m3" 100) "m1" 100) "m4" 100).evictions = 1 ∧
     containsKey (get_model (get_model (get_model (get_model (get_model
        (initCache 100 300) "m1" 100) "m2" 100) "m3" 100) "m1" 100) "m4" 100) "m2" = false) := by
  refine ⟨?_, by decide⟩
  intro st k size h
  unfold get_model
  rw [if_pos h]
  unfold containsKey at h
  cases hf : st.entries.find? (fun e => e.1 == k) with
  | none => rw [hf] at h; simp at h
  | some e =>
    refine ⟨e.2, ?_⟩
    have hk : e.1 = k := by
      have := List.find?_some hf
      simpa using this
    show (moveToEnd st.entries k).getLast? = some (k, e.2)
    unfold moveToEnd
    rw [hf]
    rw [List.getLast?_concat]
    rw [← hk]

/-- Witness for C8: a hit on the only cached key leaves it at the
most-recently-used end. -/
theorem c8_lru_eviction_witness :
    ∃ v, (get_model (get_model (initCache 5 4096) "m1" 100) "m1" 100).entries.getLast?
      = some ("m1", v) :=
  c8_lru_eviction.1 (get_model (initCache 5 4096) "m1" 100) "m1" 100 (by decide)

/-- Claim C9: invalidate-then-get reloads.  For a cached key (cache keys
are pairwise distinct, as in Python's dict), `invalidate` removes it, and
a subsequent `get_model` takes the miss path: `misses` and `loads` each
grow by one. -/
theorem c9_invalidate_then_get_reloads (st : CacheState) (k : String) (size : Nat)
    (hnd : (st.entries.map Prod.fst).Nodup) (h : containsKey st k = true) :
    containsKey (invalidate st k) k = false ∧
    (get_model (invalidate st k) k size).misses = st.misses + 1 ∧
    (get_model (invalidate st k) k size).loads = st.loads + 1 := by
  have hinv : containsKey (invalidate st k) k = false := by
    unfold invalidate
    rw [if_pos h]
    show ((st.entries.eraseP (fun e => e.1 == k)).find? (fun e => e.1 == k)).isSome = false
    rw [find?_eraseP_none st.entries k hnd]
    rfl
  have hm := get_model_miss_stats (invalidate st k) k size hinv
  have hfields := invalidate_fields st k
  exact ⟨hinv, by omega, by omega⟩

/-- Witness for C9: invalidating the only cached model and getting it
again takes the miss path and loads afresh. -/
theorem c9_invalidate_then_get_reloads_witness :
    containsKey (invalidate (get_model (initCache 5 4096) "m1" 100) "m1") "m1" = false ∧
    (get_model (invalidate (get_model (initCache 5 4096) "m1" 100) "m1") "m1" 60).misses
      = (get_model (initCache 5 4096) "m1" 100).misses + 1 ∧
    (get_model (invalidate (get_model (initCache 5 4096) "m1" 100) "m1") "m1" 60).loads
      = (get_model (initCache 5 4096) "m1" 100).loads + 1 :=
  c9_invalidate_then_get_reloads (get_model (initCache 5 4096) "m1" 100) "m1" 60
    (by decide) (by decide)

/-- Claim C10: the statistics computation is total.  `hit_rate` equals
`hits / (hits + misses)` exactly when at least one `Get` has happened and
equals 0 when none has, and it always lies in [0, 1] — the division is
guarded. -/
theorem c10_hit_rate_guarded (st : CacheState) :
    (st.hits + st.misses = 0 → hit_rate st = 0) ∧
    (0 < st.hits + st.misses →
      hit_rate st = (st.hits : ℚ) / ((st.hits : ℚ) + (st.misses : ℚ))) ∧
    0 ≤ hit_rate st ∧ hit_rate st ≤ 1 := by
  unfold hit_rate
  by_cases h : st.hits + st.misses > 0
  · rw [if_pos h]
    refine ⟨fun h0 => absurd h0 (by omega), fun _ => rfl, ?_, ?_⟩
    · apply div_nonneg
      · exact Nat.cast_nonneg _
      · exact add_nonneg (Nat.cast_nonneg _) (Nat.cast_nonneg _)
    · apply div_le_one_of_le₀
      · exact_mod_cast Nat.le_add_right _ _
      · exact add_nonneg (Nat.cast_nonneg _) (Nat.cast_nonneg _)
  · rw [if_neg h]
    exact ⟨fun _ => rfl, fun h0 => absurd h0 h, le_refl 0, by norm_num⟩

/-- Witness for C10 on a fresh cache: no `Get` has happened and the hit
rate is 0. -/
theorem c10_hit_rate_guarded_witness :
    hit_rate (initCache 5 4096) = 0 :=
  (c10_hit_rate_guarded (initCache 5 4096)).1 rfl
